import Mathlib

/-!
Verification development for the Redfish/Swordfish schema-to-type generator
(`tools/generate_from_schema.py`).  The translator core is shallowly embedded:
JSON documents become the inductive `JVal`, the Python string operations used
by the generator become executable functions on `List Char`, and each Python
function (`_format_comment`, `_get_desc`, `_get_type`, `_add_object`,
`_add_enum`, the definition walk and the canonical-URL resolution in `main`)
becomes a Lean definition of the same shape.  Code that can raise a Python
exception is embedded as an `Option`-valued function, with `none` standing for
the raised exception.
-/

set_option maxRecDepth 4000

/-- A parsed JSON value.  JSON numbers are modelled as integers (the schema
fields the generator inspects never carry fractional numbers); objects are
association lists in insertion order, matching Python dict iteration order,
with keys unique in any document produced by a JSON parser. -/
inductive JVal where
  | str : String → JVal
  | num : Int → JVal
  | bool : Bool → JVal
  | null : JVal
  | arr : List JVal → JVal
  | obj : List (String × JVal) → JVal

/-- Python truthiness of a JSON value: empty strings, zero, `False`, `None`,
empty arrays and empty objects are falsy. -/
def truthy : JVal → Bool
  | .str s => !s.isEmpty
  | .num n => n != 0
  | .bool b => b
  | .null => false
  | .arr l => !l.isEmpty
  | .obj fs => !fs.isEmpty

/-- Tests whether a JSON value is exactly the given string (Python `==`
between a value and a string literal). -/
def jIsStr : JVal → String → Bool
  | .str s, t => s == t
  | _, _ => false

/-- Tests whether an optional JSON value (a `dict.get` result) is exactly the
given string; Python `None == s` is false. -/
def optIsStr (o : Option JVal) (t : String) : Bool :=
  match o with
  | some v => jIsStr v t
  | none => false

/-- Python `s.startswith(needle)` on character lists. -/
def strStartsWith : List Char → List Char → Bool
  | [], _ => true
  | _ :: _, [] => false
  | a :: as, b :: bs => a == b && strStartsWith as bs

/-- Python `needle in hay` for strings: substring containment. -/
def containsSub (needle : List Char) : List Char → Bool
  | [] => strStartsWith needle []
  | c :: rest => strStartsWith needle (c :: rest) || containsSub needle rest

/-- Python `hay.index(needle)`: position of the first occurrence of `needle`,
`none` when absent (Python raises `ValueError` there). -/
def indexOfSub (needle : List Char) : List Char → Option Nat
  | [] => if strStartsWith needle [] then some 0 else none
  | c :: rest =>
    if strStartsWith needle (c :: rest) then some 0
    else (indexOfSub needle rest).map (fun n => n + 1)

/-- Python `s.split(sep)` for a one-character separator: splits at every
occurrence, keeping empty segments; the result is never the empty list. -/
def splitOnChar (sep : Char) : List Char → List (List Char)
  | [] => [[]]
  | c :: rest =>
    let r := splitOnChar sep rest
    if c == sep then [] :: r
    else
      match r with
      | [] => [[c]]
      | h :: t => (c :: h) :: t

/-- Fuel-indexed worker for `replaceList`: every step consumes at least one
character of the subject, so fuel equal to the subject's length suffices. -/
def replaceListF : Nat → List Char → List Char → List Char → List Char
  | 0, _, _, s => s
  | fuel + 1, needle, repl, s =>
    match s, needle with
    | [], _ => []
    | c :: rest, [] => c :: rest
    | c :: rest, n :: ns =>
      if strStartsWith (n :: ns) (c :: rest) then
        repl ++ replaceListF fuel (n :: ns) repl (List.drop ns.length rest)
      else c :: replaceListF fuel (n :: ns) repl rest

/-- Python `s.replace(needle, repl)` for a non-empty needle: replaces every
non-overlapping occurrence left to right.  (The generator only calls this with
the needle `"@odata"`; for an empty needle this model returns the string
unchanged, a case the generator never reaches.) -/
def replaceList (needle repl s : List Char) : List Char :=
  replaceListF s.length needle repl s

/-- Worker for `pyTitle`: the flag records whether the previous character was
alphabetic. -/
def pyTitleAux : Bool → List Char → List Char
  | _, [] => []
  | prevAlpha, c :: rest =>
    if c.isAlpha then
      (if prevAlpha then c.toLower else c.toUpper) :: pyTitleAux true rest
    else
      c :: pyTitleAux false rest

/-- Python `s.title()` on ASCII text: the first letter of every alphabetic run
is uppercased and every following letter is lowercased. -/
def pyTitle (l : List Char) : List Char := pyTitleAux false l

/-- Python `s.lower()` on ASCII text. -/
def lowerChars (s : String) : List Char := s.toList.map Char.toLower

/-- Python string `<` : lexicographic comparison by code point. -/
def strLt : List Char → List Char → Bool
  | [], [] => false
  | [], _ :: _ => true
  | _ :: _, [] => false
  | a :: as, b :: bs => if a == b then strLt as bs else decide (a < b)

/-- Python list indexing `l[i]` with negative-index support; `none` is an
`IndexError`. -/
def pyListGet (l : List JVal) (i : Int) : Option JVal :=
  if 0 ≤ i then l.get? i.toNat
  else
    let j : Int := (l.length : Int) + i
    if 0 ≤ j then l.get? j.toNat else none

/-- The single-quote character, used by the Python `repr` of strings. -/
def quoteChar : Char := Char.ofNat 39

mutual

/-- Python `repr` of a JSON value (the form `str` uses inside containers).
String escaping is not modelled: the schema text the generator meets contains
no quotes or control characters. -/
def pyReprOf : JVal → String
  | .str s => String.mk (quoteChar :: s.toList ++ [quoteChar])
  | .num n => toString n
  | .bool true => "True"
  | .bool false => "False"
  | .null => "None"
  | .arr l => "[" ++ pyReprList l ++ "]"
  | .obj fs => "\x7b" ++ pyReprFields fs ++ "\x7d"

/-- Comma-separated `repr` of list elements. -/
def pyReprList : List JVal → String
  | [] => ""
  | [x] => pyReprOf x
  | x :: y :: xs => pyReprOf x ++ ", " ++ pyReprList (y :: xs)

/-- Comma-separated `repr` of dict entries. -/
def pyReprFields : List (String × JVal) → String
  | [] => ""
  | [(k, v)] => String.mk (quoteChar :: k.toList ++ [quoteChar]) ++ ": " ++ pyReprOf v
  | (k, v) :: p :: xs =>
    String.mk (quoteChar :: k.toList ++ [quoteChar]) ++ ": " ++ pyReprOf v ++ ", " ++
      pyReprFields (p :: xs)

end

/-- Python `str()` of a JSON value: a string is taken verbatim, every other
value prints as its `repr`. -/
def pyStrOf : JVal → String
  | .str s => s
  | .num n => toString n
  | .bool true => "True"
  | .bool false => "False"
  | .null => "None"
  | .arr l => "[" ++ pyReprList l ++ "]"
  | .obj fs => "\x7b" ++ pyReprFields fs ++ "\x7d"

/-- The generator's `COMMON_NAME_CHANGES` table. -/
def COMMON_NAME_CHANGES : List (String × String) :=
  [("Oem", "OEM"), ("Id", "ID")]

/-- The generator's `COMMON_DESC` table of curated comments. -/
def COMMON_DESC : List (String × String) :=
  [("Description", "Description provides a description of this resource."),
   ("Id", "ID uniquely identifies the resource."),
   ("Name", "Name is the name of the resource or array element."),
   ("@odata.context", "ODataContext is the odata context."),
   ("@odata.etag", "ODataEtag is the odata etag."),
   ("@odata.id", "ODataID is the odata identifier."),
   ("@odata.type", "ODataType is the odata type."),
   ("Identifier", "Identifier shall be unique within the managed ecosystem.")]

/-- The words of a text: maximal space-free chunks, in order.  Models the
chunking `textwrap` performs after its whitespace normalisation (the schema
descriptions the generator wraps contain spaces as their only whitespace). -/
def splitWords (l : List Char) : List (List Char) :=
  (splitOnChar ' ' l).filter (fun w => !w.isEmpty)

/-- Greedy filling of words into lines of at most `width` characters, one
space between words; a word longer than `width` occupies its own line.
Models the greedy layout of `textwrap.wrap`. -/
def wrapAux (width : Nat) (cur : List Char) : List (List Char) → List (List Char)
  | [] => [cur]
  | w :: ws =>
    if cur.length + 1 + w.length ≤ width then wrapAux width (cur ++ ' ' :: w) ws
    else cur :: wrapAux width w ws

/-- Model of `textwrap.wrap(text)` at its default width of 70: the list of
wrapped lines, empty when the text holds no word. -/
def wrapText (width : Nat) (text : String) : List String :=
  match splitWords text.toList with
  | [] => []
  | w :: ws => (wrapAux width w ws).map String.mk

/-- Python `'\n'.join(lines)`. -/
def joinNl : List String → String
  | [] => ""
  | [x] => x
  | x :: y :: xs => x ++ "\n" ++ joinNl (y :: xs)

/-- Prefixes every wrapped line with the comment marker and joins with
newlines, as the final line of `_format_comment` does. -/
def renderComment (lines : List String) : String :=
  joinNl (lines.map (fun l => "// " ++ l))

/-- Python `l.index(x)` for a list of JSON values and a string `x`: position
of the first element equal to `x`, `none` for the `ValueError`. -/
def listIndexOfStr (l : List JVal) (x : String) : Option Nat :=
  match l with
  | [] => none
  | e :: rest =>
    if jIsStr e x then some 0
    else (listIndexOfStr rest x).map (fun n => n + 1)

/-- The generator's `_format_comment(name, description, cutpoint, add)`.
`none` models a raised exception.  A curated name returns its canned comment
before the description is touched.  Otherwise a string description follows the
source exactly: when the cutpoint is absent it is replaced by the empty string
(whose first occurrence is position 0), the text
`name + add + ' ' + description[index:]` is wrapped, and the lines are emitted
as comment lines.  A list description follows Python's membership/`index`
semantics; any other description raises (`in` on a non-container raises
`TypeError`, and a dict has no `index` method).  The string-description body
is split off as `formatStr`. -/
def formatStr (name : String) (descL : List Char) (cutpoint add : String) : Option String :=
  let cut := if containsSub cutpoint.data descL then cutpoint else ""
  match indexOfSub cut.data descL with
  | some i =>
    some (renderComment (wrapText 70 (name ++ add ++ " " ++ String.mk (List.drop i descL))))
  | none => none

/-- The generator's `_format_comment`; see `formatStr` for its documentation. -/
def format_comment (name : String) (description : JVal) (cutpoint : String) (add : String) :
    Option String :=
  match List.lookup name COMMON_DESC with
  | some d => some ("// " ++ d)
  | none =>
    match description with
    | .str desc => formatStr name desc.data cutpoint add
    | .arr l =>
      let cut := if l.any (fun e => jIsStr e cutpoint) then cutpoint else ""
      match listIndexOfStr l cut with
      | some i =>
        some (renderComment (wrapText 70
          (name ++ add ++ " " ++ pyStrOf (.arr (List.drop i l)))))
      | none => none
    | _ => none

/-- The generator's `_get_desc(obj)`: the `longDescription` value when truthy,
else the `description` value, else the empty string. -/
def get_desc (fields : List (String × JVal)) : JVal :=
  match List.lookup "longDescription" fields with
  | some v =>
    if truthy v then v else (List.lookup "description" fields).getD (.str "")
  | none => (List.lookup "description" fields).getD (.str "")

/-- The eager computation `obj.get('anyOf') or obj.get('items', {}).get('anyOf')`
at the top of `_get_type`.  The outer `none` models the `AttributeError` raised
when `items` is present but not a dict; the inner option is the Python value of
`anyof` (with `none` for Python `None`). -/
def computeAnyOf (obj : List (String × JVal)) : Option (Option JVal) :=
  let fromItems : Option (Option JVal) :=
    match List.lookup "items" obj with
    | none => some none
    | some (.obj its) => some (List.lookup "anyOf" its)
    | some _ => none
  match List.lookup "anyOf" obj with
  | some v => if truthy v then some (some v) else fromItems
  | none => fromItems

/-- The loop of `_get_type` over a declared `type` list: every non-`"null"`
member overwrites `result` in turn (integer and number map to `int`, boolean
to `bool`, anything else is kept verbatim), so the final value comes from the
last non-null member. -/
def typeListFold (r : JVal) : List JVal → JVal
  | [] => r
  | k :: ks =>
    if jIsStr k "null" then typeListFold r ks
    else if jIsStr k "integer" || jIsStr k "number" then typeListFold (.str "int") ks
    else if jIsStr k "boolean" then typeListFold (.str "bool") ks
    else typeListFold k ks

/-- The last path segment of a reference: Python `ref.split('/')[-1]`. -/
def lastSegment (s : String) : String :=
  String.mk ((splitOnChar '/' s.toList).getLastD [])

/-- The loop of `_get_type` over an `anyOf` list: every alternative holding a
`$ref` overwrites `result` with the final path segment of its reference, so the
last reference wins.  Alternatives follow Python's `'$ref' in kind` semantics:
a dict checks its keys, a string checks substring containment (and then raises
on indexing), a list checks membership (and then raises on indexing), and a
scalar raises `TypeError` immediately. -/
def anyofFold (r : JVal) : List JVal → Option JVal
  | [] => some r
  | k :: ks =>
    match k with
    | .obj kf =>
      match List.lookup "$ref" kf with
      | some (.str s) => anyofFold (.str (lastSegment s)) ks
      | some _ => none
      | none => anyofFold r ks
    | .str s => if containsSub ['$', 'r', 'e', 'f'] s.toList then none else anyofFold r ks
    | .arr l => if l.any (fun e => jIsStr e "$ref") then none else anyofFold r ks
    | _ => none

/-- The final two rules of the `_get_type` chain: the hyperlink fallback fires
when the name is unchanged by lowercasing its first character and does not
contain `odata` case-insensitively; otherwise the initial `result = 'string'`
survives. -/
def fallbackType (name : String) : JVal :=
  let c := name.toList.take 1
  if c == c.map Char.toLower && !containsSub "odata".toList (lowerChars name) then
    .str "common.Link"
  else .str "string"

/-- The `elif '$ref' in obj.get('items', {})` rule of `_get_type`, falling
through to `fallbackType` when it does not match.  `none` models the raised
exception (`in` on a scalar, or indexing a string/list with a string). -/
def itemsRefCase (name : String) (obj : List (String × JVal)) : Option JVal :=
  match List.lookup "items" obj with
  | none => some (fallbackType name)
  | some (.obj its) =>
    match List.lookup "$ref" its with
    | some (.str s) => some (.str (lastSegment s))
    | some _ => none
    | none => some (fallbackType name)
  | some (.str s) =>
    if containsSub ['$', 'r', 'e', 'f'] s.toList then none else some (fallbackType name)
  | some (.arr l) =>
    if l.any (fun e => jIsStr e "$ref") then none else some (fallbackType name)
  | some _ => none

/-- The ordered rule chain of `_get_type`, before the array and tag
post-processing: name rules first, then declared `type == 'object'`, then a
declared `type` list, then `anyOf`, then a `$ref` inside `items`, then the
hyperlink fallback. -/
def resolveBase (name : String) (tipe : Option JVal) (anyof : Option JVal)
    (obj : List (String × JVal)) : Option JVal :=
  if containsSub "count".toList (lowerChars name) then some (.str "int")
  else if name == "Status" then some (.str "common.Status")
  else if name == "Identifier" then some (.str "common.Identifier")
  else if name == "Description" then some (.str "string")
  else if optIsStr tipe "object" then some (.str name)
  else
    match tipe with
    | some (.arr kinds) => some (typeListFold (.str "string") kinds)
    | _ =>
      match anyof with
      | some (.arr kinds) => anyofFold (.str "string") kinds
      | _ => itemsRefCase name obj

/-- The serialization-tag suffix appended by `_get_type` for odata names and
names in the override table: Python `'%s `json:"%s"`' % (result, name)`. -/
def jsonTag (result : JVal) (name : String) : String :=
  pyStrOf result ++ " `json:\"" ++ name ++ "\"`"

/-- The generator's `_get_type(name, obj)` on a dict node `obj`: the eager
`anyof` computation, the ordered rule chain, then the `'[]'` wrap when the
declared `type` is `'array'` and the serialization tag when the name contains
`odata` (case-sensitively) or sits in the override table.  `none` models a
raised exception. -/
def get_type (name : String) (obj : List (String × JVal)) : Option JVal :=
  let tipe := List.lookup "type" obj
  match computeAnyOf obj with
  | none => none
  | some anyof =>
    match resolveBase name tipe anyof obj with
    | none => none
    | some base =>
      let arredOpt : Option JVal :=
        if optIsStr tipe "array" then
          match base with
          | .str s => some (JVal.str ("[]" ++ s))
          | _ => none
        else some base
      match arredOpt with
      | none => none
      | some arred =>
        if containsSub "odata".toList name.toList
            || COMMON_NAME_CHANGES.any (fun p => p.1 == name) then
          some (.str (jsonTag arred name))
        else some arred

/-- The attribute-name normalisation inside `_add_object`: the override table
for exact matches, and for names containing `@odata` the split-on-dot rewrite —
`@odata` in the first segment is replaced by `OData` (or by nothing when the
last segment contains `count`) and the Python-title-cased last segment is
appended. -/
def normalizeName (prop : String) : String :=
  if containsSub "@odata".toList prop.toList then
    let props := splitOnChar '.' prop.toList
    let lastSeg := props.getLastD []
    let repl := if containsSub "count".toList lastSeg then [] else "OData".toList
    String.mk (replaceList "@odata".toList repl (props.headD []) ++ pyTitle lastSeg)
  else (List.lookup prop COMMON_NAME_CHANGES).getD prop

/-- An attribute descriptor: the `attr` dict built per property inside
`_add_object`.  The `type` field carries whatever `_get_type` returned. -/
structure AttrInfo where
  name : String
  type : JVal
  description : String

/-- A class descriptor: the `class_info` dict built by `_add_object`. -/
structure ClassInfo where
  name : String
  description : String
  attrs : List AttrInfo

/-- An enum member descriptor: the `member` dict built by `_add_enum`; the raw
literal is kept verbatim. -/
structure EnumMember where
  name : JVal
  description : String

/-- An enum descriptor: the `enum_info` dict built by `_add_enum`. -/
structure EnumInfo where
  name : String
  description : String
  members : List EnumMember

/-- The intermediate model: the `params` dict handed to the renderer. -/
structure Model where
  object_name : String
  package : String
  classes : List ClassInfo
  enums : List EnumInfo

/-- The per-property body of the `_add_object` loop when the property's node
is a dict: skip on truthy `deprecated`, otherwise build the attribute with the
normalised name, the resolved type and the synthesized comment. -/
def buildAttrs : List (String × JVal) → Option (List AttrInfo)
  | [] => some []
  | (prop, prawp) :: rest =>
    if prop == "Name" || prop == "Id" then buildAttrs rest
    else
      match prawp with
      | .obj pf =>
        if truthy ((List.lookup "deprecated" pf).getD .null) then buildAttrs rest
        else
          match get_type prop pf with
          | none => none
          | some ty =>
            match format_comment prop (get_desc pf) "used" " is" with
            | none => none
            | some de =>
              match buildAttrs rest with
              | none => none
              | some tailAttrs => some (⟨normalizeName prop, ty, de⟩ :: tailAttrs)
      | _ => none

/-- The `_add_object` property loop when `properties` is a JSON array: Python
iterates the elements, so a `"Name"`/`"Id"` element is skipped, an integer
element indexes the array itself (and survives only when it reaches a dict
whose `deprecated` is truthy — a non-deprecated hit raises `TypeError` at
`'@odata' in prop` since the property is an int), and any other element raises
when used as a list index. -/
def attrsFromList (orig : List JVal) : List JVal → Option (List AttrInfo)
  | [] => some []
  | e :: rest =>
    if jIsStr e "Name" || jIsStr e "Id" then attrsFromList orig rest
    else
      match e with
      | .num i =>
        match pyListGet orig i with
        | some (.obj pf) =>
          if truthy ((List.lookup "deprecated" pf).getD .null) then attrsFromList orig rest
          else none
        | some _ => none
        | none => none
      | _ => none

/-- The generator's `_add_object(params, name, obj)` on a dict definition:
builds the class descriptor, iterating `obj.get('properties', [])` as Python
does for each possible shape of the `properties` value. -/
def add_object (name : String) (fields : List (String × JVal)) : Option ClassInfo :=
  match format_comment name (get_desc fields) "used" " is" with
  | none => none
  | some d =>
    let attrsOpt : Option (List AttrInfo) :=
      match List.lookup "properties" fields with
      | none => some []
      | some (.obj pfs) => buildAttrs pfs
      | some (.arr l) => attrsFromList l l
      | some (.str s) => if s.isEmpty then some [] else none
      | some _ => none
    match attrsOpt with
    | none => none
    | some attrs => some ⟨name, d, attrs⟩

/-- Python `enum.get(key, {}).get(en)` for the per-member description tables:
the outer option is raised-exception (`.get` on a non-dict table, or an
unhashable member used as a key), the inner is the looked-up value. -/
def enumDescLookup (fields : List (String × JVal)) (key : String) (en : JVal) :
    Option (Option JVal) :=
  match List.lookup key fields with
  | none => some none
  | some (.obj dfs) =>
    match en with
    | .str s => some (List.lookup s dfs)
    | .arr _ => none
    | .obj _ => none
    | _ => some none
  | some _ => none

/-- The member loop of `_add_enum`: each literal keeps its raw value as the
member name, prefers a truthy long description, falls back to the short one or
the empty string, and synthesizes the comment with cutpoint `shall`, empty
prefix, and the synthetic name `str(en) + name`. -/
def enumMembers (fields : List (String × JVal)) (name : String) :
    List JVal → Option (List EnumMember)
  | [] => some []
  | en :: rest =>
    match enumDescLookup fields "enumLongDescriptions" en with
    | none => none
    | some long =>
      let descOpt : Option JVal :=
        match long with
        | some v =>
          if truthy v then some v
          else (enumDescLookup fields "enumDescriptions" en).map (fun o => o.getD (.str ""))
        | none => (enumDescLookup fields "enumDescriptions" en).map (fun o => o.getD (.str ""))
      match descOpt with
      | none => none
      | some desc =>
        match format_comment (pyStrOf en ++ name) desc "shall" "" with
        | none => none
        | some d =>
          match enumMembers fields name rest with
          | none => none
          | some tailMems => some (⟨en, d⟩ :: tailMems)

/-- The generator's `_add_enum(params, name, enum)`: the descriptor comment,
then the member loop over `enum.get('enum', [])`, iterated as Python iterates
the value's shape (array elements, string characters as one-character strings,
dict keys; a scalar raises). -/
def add_enum (name : String) (fields : List (String × JVal)) : Option EnumInfo :=
  match format_comment name (get_desc fields) "used" " is" with
  | none => none
  | some d =>
    let memsOpt : Option (List EnumMember) :=
      match List.lookup "enum" fields with
      | none => some []
      | some (.arr l) => enumMembers fields name l
      | some (.str s) => enumMembers fields name (s.toList.map (fun c => .str (String.singleton c)))
      | some (.obj dfs) => enumMembers fields name (dfs.map (fun p => .str p.1))
      | some _ => none
    match memsOpt with
    | none => none
    | some mems => some ⟨name, d, mems⟩

/-- Python `needle in container` for the `target`/`title` membership tests in
`main`: keys of a dict, substring of a string, membership in a list; `none` is
the `TypeError` on any other value. -/
def pyInContainer (needle : String) (c : JVal) : Option Bool :=
  match c with
  | .str s => some (containsSub needle.toList s.toList)
  | .obj fs => some (fs.any (fun p => p.1 == needle))
  | .arr l => some (l.any (fun e => jIsStr e needle))
  | _ => none

/-- The definition walk of `main`, one definition at a time in document order:
skip a definition named `Actions`; for an object-typed dict skip it when its
`properties` contain both `target` and `title` (short-circuit as in Python)
and otherwise append the class descriptor; for a truthy `enum` append the enum
descriptor; drop anything else.  A non-dict definition raises at
`definition.get`. -/
def classifyDefs (m : Model) : List (String × JVal) → Option Model
  | [] => some m
  | (name, defn) :: rest =>
    if name == "Actions" then classifyDefs m rest
    else
      match defn with
      | .obj fields =>
        if optIsStr (List.lookup "type" fields) "object" then
          let properties := (List.lookup "properties" fields).getD (.str "")
          match pyInContainer "target" properties with
          | none => none
          | some hasTarget =>
            if hasTarget then
              match pyInContainer "title" properties with
              | none => none
              | some hasTitle =>
                if hasTitle then classifyDefs m rest
                else
                  match add_object name fields with
                  | none => none
                  | some ci => classifyDefs { m with classes := m.classes ++ [ci] } rest
            else
              match add_object name fields with
              | none => none
              | some ci => classifyDefs { m with classes := m.classes ++ [ci] } rest
        else if truthy ((List.lookup "enum" fields).getD .null) then
          match add_enum name fields with
          | none => none
          | some ei => classifyDefs { m with enums := m.enums ++ [ei] } rest
        else classifyDefs m rest
      | _ => none

/-- The generator's `classify` phase: `object_data['definitions']` iterated by
`classifyDefs`, starting from the empty model.  A missing `definitions` key is
a `KeyError`; iterating a non-dict value follows Python (list elements or
string characters are then used as definition names and crash on indexing,
except when nothing survives the `Actions` skip). -/
def classify (objectName pkg : String) (objectData : JVal) : Option Model :=
  let m0 : Model := ⟨objectName, pkg, [], []⟩
  match objectData with
  | .obj of =>
    match List.lookup "definitions" of with
    | some (.obj dfs) => classifyDefs m0 dfs
    | some (.arr l) => if l.all (fun e => jIsStr e "Actions") then some m0 else none
    | some (.str s) => if s.isEmpty then some m0 else none
    | some _ => none
    | none => none
  | _ => none

/-- The `anyOf` loop of the canonical-URL resolution in `main`: each
alternative's `$ref` (defaulting to the empty string) is skipped when it
contains `idRef`, otherwise its fragment before `#` replaces the current URL
whenever it compares lexicographically greater. -/
def chaseRefs (url : String) : List JVal → Option String
  | [] => some url
  | r :: rs =>
    match r with
    | .obj rf =>
      match (List.lookup "$ref" rf).getD (.str "") with
      | .str link =>
        if containsSub "idRef".toList link.toList then chaseRefs url rs
        else
          let refurl := String.mk ((splitOnChar '#' link.toList).headD [])
          chaseRefs (if strLt url.toList refurl.toList then refurl else url) rs
      | .obj fs2 =>
        if fs2.any (fun p => p.1 == "idRef") then chaseRefs url rs else none
      | .arr l2 =>
        if l2.any (fun e => jIsStr e "idRef") then chaseRefs url rs else none
      | _ => none
    | _ => none

/-- The canonical-URL resolution of `main`: find the first definition named
`objectName`, walk its `anyOf` alternatives with `chaseRefs`, and keep the
original URL when no definition matches or the stub has no alternatives. -/
def resolveCanonicalURL (url : String) (baseData : JVal) (objectName : String) :
    Option String :=
  match baseData with
  | .obj bf =>
    match (List.lookup "definitions" bf).getD (.arr []) with
    | .obj dfs =>
      match List.lookup objectName dfs with
      | none => some url
      | some (.obj df) =>
        match (List.lookup "anyOf" df).getD (.arr []) with
        | .arr refs => chaseRefs url refs
        | .obj [] => some url
        | .obj (_ :: _) => none
        | .str s => if s.isEmpty then some url else none
        | _ => none
      | some _ => none
    | .arr l => if l.any (fun e => jIsStr e objectName) then none else some url
    | .str s =>
      if s.toList.any (fun c => String.singleton c == objectName) then none else some url
    | _ => none
  | _ => none

/-- The last member of a declared `type` list that is not the string
`"null"`, if any: the member whose mapping the loop of `_get_type` returns. -/
def lastNonNull : List JVal → Option JVal
  | [] => none
  | k :: ks =>
    match lastNonNull ks with
    | some x => some x
    | none => if jIsStr k "null" then none else some k

/-- The scalar mapping the `_get_type` loop applies to a `type`-list member:
integer and number become `int`, boolean becomes `bool`, anything else is
kept. -/
def mapKind (k : JVal) : JVal :=
  if jIsStr k "integer" || jIsStr k "number" then .str "int"
  else if jIsStr k "boolean" then .str "bool"
  else k

/-- The last `anyOf` alternative carrying a `$ref`, reduced to the final path
segment of its reference — the name the `_get_type` anyOf loop returns. -/
def lastRefName : List JVal → Option String
  | [] => none
  | k :: ks =>
    match lastRefName ks with
    | some s => some s
    | none =>
      match k with
      | .obj kf =>
        match List.lookup "$ref" kf with
        | some (.str r) => some (lastSegment r)
        | _ => none
      | _ => none

/-- The reference URL fragments of the `anyOf` alternatives that qualify in
the canonical-URL loop: every alternative whose `$ref` (defaulting to the
empty string) does not contain `idRef` contributes its part before `#`. -/
def qualFrags : List JVal → List String
  | [] => []
  | r :: rs =>
    match r with
    | .obj rf =>
      match (List.lookup "$ref" rf).getD (.str "") with
      | .str link =>
        if containsSub "idRef".toList link.toList then qualFrags rs
        else String.mk ((splitOnChar '#' link.toList).headD []) :: qualFrags rs
      | _ => qualFrags rs
    | _ => qualFrags rs

/-- The long/short description preference in the words of the specification:
the `longDescription` when present and non-empty, otherwise the `description`,
otherwise the empty string. -/
def descPreferenceSpec (fields : List (String × JVal)) : JVal :=
  match List.lookup "longDescription" fields with
  | some (.str s) =>
    if s.isEmpty then (List.lookup "description" fields).getD (.str "") else .str s
  | _ => (List.lookup "description" fields).getD (.str "")


theorem indexOfSub_nil_needle (l : List Char) : indexOfSub [] l = some 0 := by
  cases l <;> simp [indexOfSub, strStartsWith]

theorem indexOfSub_isSome_of_contains (needle hay : List Char)
    (h : containsSub needle hay = true) : (indexOfSub needle hay).isSome = true := by
  induction hay with
  | nil =>
    simp [containsSub] at h
    simp [indexOfSub, h]
  | cons c rest ih =>
    simp only [containsSub, Bool.or_eq_true] at h
    rcases h with h | h
    · simp [indexOfSub, h]
    · rw [indexOfSub]
      by_cases hs : strStartsWith needle (c :: rest) = true
      · simp [hs]
      · simp only [Bool.not_eq_true] at hs
        simp [hs, ih h]

theorem formatStr_exists_index (cp : String) (hay : List Char) :
    ∃ i, indexOfSub (if containsSub cp.data hay = true then cp else "").data hay = some i := by
  by_cases hc : containsSub cp.data hay = true
  · rw [if_pos hc]
    exact Option.isSome_iff_exists.mp (indexOfSub_isSome_of_contains _ _ hc)
  · rw [if_neg hc]
    exact ⟨0, indexOfSub_nil_needle hay⟩

theorem formatStr_isSome (name : String) (descL : List Char) (cutpoint add : String) :
    (formatStr name descL cutpoint add).isSome = true := by
  obtain ⟨i, hi⟩ := formatStr_exists_index cutpoint descL
  simp only [formatStr]
  rw [hi]
  rfl

/-- C8: the comment synthesizer is total on string descriptions — it returns a
comment for every name, cutpoint and prefix rather than failing — and on the
empty description (for a non-curated name) it degrades to the wrapped comment
of `name + prefix + " "` followed by nothing. -/
theorem format_comment_total (name cutpoint add desc : String) :
    (format_comment name (.str desc) cutpoint add).isSome = true ∧
    (List.lookup name COMMON_DESC = none →
      format_comment name (.str "") cutpoint add =
        some (renderComment (wrapText 70 (name ++ add ++ " ")))) := by
  constructor
  · rw [format_comment]
    cases hl : List.lookup name COMMON_DESC with
    | some d => rfl
    | none => exact formatStr_isSome name desc.data cutpoint add
  · intro hl
    rw [format_comment]
    rw [hl]
    show formatStr name [] cutpoint add = _
    by_cases hc : containsSub cutpoint.data [] = true
    · have hcut : cutpoint.data = [] := by
        cases hcp : cutpoint.data with
        | nil => rfl
        | cons a l => rw [hcp] at hc; simp [containsSub, strStartsWith] at hc
      simp only [formatStr]
      rw [if_pos hc]
      rw [show indexOfSub cutpoint.data ([] : List Char) = some 0 from by
        rw [hcut]; exact indexOfSub_nil_needle []]
      exact congrArg (fun t => some (renderComment (wrapText 70 t))) (String.append_empty _)
    · simp only [formatStr]
      rw [if_neg hc]
      rw [show indexOfSub ("" : String).data ([] : List Char) = some 0 from
        indexOfSub_nil_needle []]
      exact congrArg (fun t => some (renderComment (wrapText 70 t))) (String.append_empty _)

/-- Witness for C8 at a concrete input. -/
theorem format_comment_total_witness :
    format_comment "Widget" (.str "") "used" " is" = some "// Widget is" := by
  have h := (format_comment_total "Widget" "used" " is" "").2 (by decide)
  rw [h]
  decide

/-- C1 counterexample: Python `title()` lowercases the non-initial letters of
the last segment, so `@odata.nextLink` normalises to `ODataNextlink`, not the
claimed `ODataNextLink`; and the text around the `@odata` marker in the first
segment survives, so `Members@odata.count` normalises to `MembersCount`, not
the claimed bare `Count`. -/
theorem normalizeName_odata_cex :
    normalizeName "@odata.nextLink" = "ODataNextlink" ∧
    normalizeName "@odata.nextLink" ≠ "ODataNextLink" ∧
    normalizeName "Members@odata.count" = "MembersCount" ∧
    normalizeName "Members@odata.count" ≠ "Count" := by
  refine ⟨by decide, by decide, by decide, by decide⟩

theorem typeListFold_lastNonNull (kinds : List JVal) :
    ∀ r, typeListFold r kinds = ((lastNonNull kinds).map mapKind).getD r := by
  induction kinds with
  | nil => intro r; rfl
  | cons k ks ih =>
    intro r
    rw [typeListFold, lastNonNull]
    by_cases hn : jIsStr k "null" = true
    · rw [if_pos hn, ih r]
      cases h : lastNonNull ks with
      | some x => rfl
      | none => simp [hn]
    · rw [if_neg hn]
      by_cases hin : (jIsStr k "integer" || jIsStr k "number") = true
      · rw [if_pos hin, ih (.str "int")]
        cases h : lastNonNull ks with
        | some x => rfl
        | none =>
          simp only [Bool.not_eq_true] at hn
          simp [hn, mapKind, hin]
      · rw [if_neg hin]
        by_cases hb : jIsStr k "boolean" = true
        · rw [if_pos hb, ih (.str "bool")]
          cases h : lastNonNull ks with
          | some x => rfl
          | none =>
            simp only [Bool.not_eq_true] at hn hin
            simp [hn, mapKind, hin, hb]
        · rw [if_neg hb, ih k]
          cases h : lastNonNull ks with
          | some x => rfl
          | none =>
            simp only [Bool.not_eq_true] at hn hin hb
            simp [hn, mapKind, hin, hb]

theorem get_type_eq (name : String) (obj : List (String × JVal)) (av : Option JVal) (s : String)
    (h1 : computeAnyOf obj = some av)
    (h2 : resolveBase name (List.lookup "type" obj) av obj = some (.str s)) :
    get_type name obj =
      some (if containsSub "odata".toList name.toList
              || COMMON_NAME_CHANGES.any (fun p => p.1 == name) then
              JVal.str (jsonTag (.str (if optIsStr (List.lookup "type" obj) "array"
                then "[]" ++ s else s)) name)
            else JVal.str (if optIsStr (List.lookup "type" obj) "array"
                then "[]" ++ s else s)) := by
  have step : ∀ (x : JVal),
      (if (containsSub "odata".toList name.toList
          || COMMON_NAME_CHANGES.any fun p => p.1 == name) = true then
        some (JVal.str (jsonTag x name))
      else some x) =
      some (if (containsSub "odata".toList name.toList
          || COMMON_NAME_CHANGES.any fun p => p.1 == name) = true then
        JVal.str (jsonTag x name)
      else x) := by
    intro x
    split <;> rfl
  simp only [get_type, h1, h2]
  by_cases harr : optIsStr (List.lookup "type" obj) "array" = true
  · simp only [harr, if_true]
    exact step (JVal.str ("[]" ++ s))
  · rw [Bool.not_eq_true] at harr
    simp only [harr, Bool.false_eq_true, if_false]
    exact step (JVal.str s)

theorem resolveBase_unfold (name : String) (tipe anyof : Option JVal)
    (obj : List (String × JVal)) :
    resolveBase name tipe anyof obj =
      (if containsSub "count".toList (lowerChars name) = true then some (JVal.str "int")
      else if (name == "Status") = true then some (JVal.str "common.Status")
      else if (name == "Identifier") = true then some (JVal.str "common.Identifier")
      else if (name == "Description") = true then some (JVal.str "string")
      else if optIsStr tipe "object" = true then some (JVal.str name)
      else
        match tipe with
        | some (.arr kinds) => some (typeListFold (.str "string") kinds)
        | _ =>
          match anyof with
          | some (.arr kinds) => anyofFold (.str "string") kinds
          | _ => itemsRefCase name obj) := rfl

/-- C2 counterexample: for the declared type list `["integer", "string"]` the
loop lets the later member overwrite the earlier one, so the resolver returns
`string`, not the `int` the first non-null member would give. -/
theorem get_type_type_list_cex :
    get_type "Foo" [("type", .arr [.str "integer", .str "string"])] = some (.str "string") ∧
    get_type "Foo" [("type", .arr [.str "integer", .str "string"])] ≠ some (.str "int") := by
  refine ⟨rfl, fun h => ?_⟩
  have e : get_type "Foo" [("type", .arr [.str "integer", .str "string"])] =
      some (.str "string") := rfl
  rw [e] at h
  injection h with h2
  injection h2 with h3
  exact absurd h3 (by decide)

/-- C2 (amended): for a property whose schema declares `type` as a list and
that matches no higher-precedence rule, the resolver maps the LAST non-null
member of the list — integer or number to the integer type, boolean to the
boolean type, any other member to the literal token — and defaults to the
string type when every member is null or the list is empty. -/
theorem get_type_type_list_last (name : String) (fields : List (String × JVal))
    (kinds : List JVal) (av : Option JVal)
    (hlt : List.lookup "type" fields = some (JVal.arr kinds))
    (hav : computeAnyOf fields = some av)
    (hcount : containsSub "count".toList (lowerChars name) = false)
    (hst : name ≠ "Status") (hidf : name ≠ "Identifier") (hde : name ≠ "Description")
    (hodata : containsSub "odata".toList name.toList = false)
    (hoem : name ≠ "Oem") (hidn : name ≠ "Id") :
    get_type name fields =
      some (((lastNonNull kinds).map mapKind).getD (.str "string")) := by
  have hcount' : ¬ (containsSub "count".toList (lowerChars name) = true) := by
    rw [hcount]; exact Bool.false_ne_true
  have htab : COMMON_NAME_CHANGES.any (fun p => p.1 == name) = false := by
    simp [COMMON_NAME_CHANGES, Ne.symm hoem, Ne.symm hidn]
  have htag : ¬ ((containsSub "odata".toList name.toList
      || COMMON_NAME_CHANGES.any fun p => p.1 == name) = true) := by
    rw [hodata, htab]; exact Bool.false_ne_true
  have h2 : resolveBase name (List.lookup "type" fields) av
      fields = some (typeListFold (.str "string") kinds) := by
    rw [hlt, resolveBase_unfold]
    rw [if_neg hcount']
    rw [if_neg (by simp [hst])]
    rw [if_neg (by simp [hidf])]
    rw [if_neg (by simp [hde])]
    rw [if_neg (by simp [optIsStr, jIsStr])]
  have h3 : get_type name fields =
      some (typeListFold (.str "string") kinds) := by
    simp only [get_type, hav, h2]
    rw [show optIsStr (List.lookup "type" fields) "array" = false from by
      rw [hlt]; rfl]
    show (if (containsSub "odata".toList name.toList
        || COMMON_NAME_CHANGES.any fun p => p.1 == name) = true then
      some (JVal.str (jsonTag (typeListFold (JVal.str "string") kinds) name))
    else some (typeListFold (JVal.str "string") kinds)) =
      some (typeListFold (JVal.str "string") kinds)
    rw [if_neg htag]
  rw [h3, typeListFold_lastNonNull]

/-- Witness for C2's amended theorem at a concrete input. -/
theorem get_type_type_list_last_witness :
    get_type "Foo" [("type", JVal.arr [.str "null", .str "boolean"])] = some (.str "bool") := by
  have h := get_type_type_list_last "Foo" [("type", JVal.arr [.str "null", .str "boolean"])]
    [.str "null", .str "boolean"] none rfl rfl
    (by decide) (by decide) (by decide) (by decide) (by decide) (by decide) (by decide)
  exact h

theorem anyofFold_lastRefName (kinds : List JVal)
    (hwf : ∀ k ∈ kinds, ∃ kf, k = JVal.obj kf ∧
      (List.lookup "$ref" kf = none ∨ ∃ r, List.lookup "$ref" kf = some (.str r))) :
    ∀ r0, anyofFold r0 kinds = some (((lastRefName kinds).map JVal.str).getD r0) := by
  induction kinds with
  | nil => intro r0; rfl
  | cons k ks ih =>
    intro r0
    obtain ⟨kf, rfl, hk⟩ := hwf k (List.mem_cons_self k ks)
    have ihs := ih (fun x hx => hwf x (List.mem_cons_of_mem _ hx))
    have e1 : anyofFold r0 (JVal.obj kf :: ks) =
        (match List.lookup "$ref" kf with
         | some (.str s) => anyofFold (.str (lastSegment s)) ks
         | some _ => none
         | none => anyofFold r0 ks) := rfl
    have e4 : lastRefName (JVal.obj kf :: ks) =
        (match lastRefName ks with
         | some s => some s
         | none =>
           match List.lookup "$ref" kf with
           | some (.str r) => some (lastSegment r)
           | _ => none) := rfl
    rcases hk with hnone | ⟨r, hr⟩
    · have e2 : anyofFold r0 (JVal.obj kf :: ks) = anyofFold r0 ks := by rw [e1, hnone]
      rw [e2, ihs r0]
      cases hlr : lastRefName ks with
      | some s => rw [e4, hlr]
      | none => rw [e4, hlr, hnone]
    · have e2 : anyofFold r0 (JVal.obj kf :: ks) = anyofFold (.str (lastSegment r)) ks := by
        rw [e1, hr]
      rw [e2, ihs (.str (lastSegment r))]
      cases hlr : lastRefName ks with
      | some s => rw [e4, hlr]; rfl
      | none => rw [e4, hlr, hr]; rfl

/-- C3 counterexample: with two referencing alternatives the loop lets the
later `$ref` overwrite the earlier one, so the resolver returns the final path
segment of the LAST reference, not of the first one. -/
theorem get_type_anyof_cex :
    get_type "Foo" [("anyOf", .arr [.obj [("$ref", .str "defs/A")],
      .obj [("$ref", .str "defs/B")]])] = some (.str "B") ∧
    get_type "Foo" [("anyOf", .arr [.obj [("$ref", .str "defs/A")],
      .obj [("$ref", .str "defs/B")]])] ≠ some (.str "A") := by
  refine ⟨rfl, fun h => ?_⟩
  have e : get_type "Foo" [("anyOf", .arr [.obj [("$ref", .str "defs/A")],
      .obj [("$ref", .str "defs/B")]])] = some (.str "B") := rfl
  rw [e] at h
  injection h with h2
  injection h2 with h3
  exact absurd h3 (by decide)

/-- C3 (amended): for a property whose schema declares a non-empty `anyOf`
list of object alternatives (each alternative's `$ref`, when present, being a
string) and that matches no higher-precedence rule, the resolver returns the
final path segment of the LAST reference found among the alternatives, and the
string type when no alternative carries a reference. -/
theorem get_type_anyof_last (name : String) (fields : List (String × JVal))
    (kinds : List JVal) (hne : kinds ≠ [])
    (hao : List.lookup "anyOf" fields = some (JVal.arr kinds))
    (hlt : List.lookup "type" fields = none)
    (hwf : ∀ k ∈ kinds, ∃ kf, k = JVal.obj kf ∧
      (List.lookup "$ref" kf = none ∨ ∃ r, List.lookup "$ref" kf = some (.str r)))
    (hcount : containsSub "count".toList (lowerChars name) = false)
    (hst : name ≠ "Status") (hidf : name ≠ "Identifier") (hde : name ≠ "Description")
    (hodata : containsSub "odata".toList name.toList = false)
    (hoem : name ≠ "Oem") (hidn : name ≠ "Id") :
    get_type name fields =
      some (((lastRefName kinds).map JVal.str).getD (.str "string")) := by
  have hcount' : ¬ (containsSub "count".toList (lowerChars name) = true) := by
    rw [hcount]; exact Bool.false_ne_true
  have htab : COMMON_NAME_CHANGES.any (fun p => p.1 == name) = false := by
    simp [COMMON_NAME_CHANGES, Ne.symm hoem, Ne.symm hidn]
  have htag : ¬ ((containsSub "odata".toList name.toList
      || COMMON_NAME_CHANGES.any fun p => p.1 == name) = true) := by
    rw [hodata, htab]; exact Bool.false_ne_true
  have hne' : kinds.isEmpty = false := by
    cases kinds with
    | nil => exact absurd rfl hne
    | cons a l => rfl
  have h1 : computeAnyOf fields = some (some (JVal.arr kinds)) := by
    have e : computeAnyOf fields =
        (match List.lookup "anyOf" fields with
         | some v =>
           if truthy v then some (some v)
           else
             match List.lookup "items" fields with
             | none => some none
             | some (.obj its) => some (List.lookup "anyOf" its)
             | some _ => none
         | none =>
           match List.lookup "items" fields with
           | none => some none
           | some (.obj its) => some (List.lookup "anyOf" its)
           | some _ => none) := rfl
    rw [e, hao]
    show (if truthy (JVal.arr kinds) = true then some (some (JVal.arr kinds))
      else
        match List.lookup "items" fields with
        | none => some none
        | some (.obj its) => some (List.lookup "anyOf" its)
        | some _ => none) = some (some (JVal.arr kinds))
    rw [if_pos (by simp [truthy, hne'])]
  have h2 : resolveBase name (List.lookup "type" fields)
      (some (JVal.arr kinds)) fields =
      some (((lastRefName kinds).map JVal.str).getD (.str "string")) := by
    rw [hlt, resolveBase_unfold]
    rw [if_neg hcount']
    rw [if_neg (by simp [hst])]
    rw [if_neg (by simp [hidf])]
    rw [if_neg (by simp [hde])]
    rw [if_neg (by simp [optIsStr])]
    exact anyofFold_lastRefName kinds hwf (.str "string")
  have h3 : get_type name fields =
      some (((lastRefName kinds).map JVal.str).getD (.str "string")) := by
    simp only [get_type, h1, h2]
    rw [show optIsStr (List.lookup "type" fields) "array" = false from by
      rw [hlt]; rfl]
    show (if (containsSub "odata".toList name.toList
        || COMMON_NAME_CHANGES.any fun p => p.1 == name) = true then
      some (JVal.str (jsonTag (((lastRefName kinds).map JVal.str).getD (.str "string")) name))
    else some (((lastRefName kinds).map JVal.str).getD (.str "string"))) =
      some (((lastRefName kinds).map JVal.str).getD (.str "string"))
    rw [if_neg htag]
  exact h3

/-- Witness for C3's amended theorem at a concrete input. -/
theorem get_type_anyof_last_witness :
    get_type "Foo" [("anyOf", JVal.arr [.obj [("$ref", .str "x/Alpha")], .obj []])] =
      some (.str "Alpha") := by
  have hwf : ∀ k ∈ [JVal.obj [("$ref", JVal.str "x/Alpha")], JVal.obj []],
      ∃ kf, k = JVal.obj kf ∧
        (List.lookup "$ref" kf = none ∨ ∃ r, List.lookup "$ref" kf = some (.str r)) := by
    intro k hk
    simp only [List.mem_cons, List.not_mem_nil, or_false] at hk
    rcases hk with rfl | rfl
    · exact ⟨_, rfl, Or.inr ⟨"x/Alpha", rfl⟩⟩
    · exact ⟨_, rfl, Or.inl rfl⟩
  have h := get_type_anyof_last "Foo"
    [("anyOf", JVal.arr [.obj [("$ref", .str "x/Alpha")], .obj []])]
    [.obj [("$ref", .str "x/Alpha")], .obj []]
    (List.cons_ne_nil _ _) rfl rfl hwf (by decide) (by decide) (by decide) (by decide)
    (by decide) (by decide) (by decide)
  exact h

/-- C4 counterexample: for a property named `Count` whose schema declares
`type: array`, the array post-processing wraps the count rule's result, so the
resolver returns `[]int`, not the bare integer type the claim promises for
every declared type. -/
theorem get_type_count_cex :
    get_type "Count" [("type", .str "array")] = some (.str "[]int") ∧
    get_type "Count" [("type", .str "array")] ≠ some (.str "int") := by
  refine ⟨rfl, fun h => ?_⟩
  have e : get_type "Count" [("type", .str "array")] = some (.str "[]int") := rfl
  rw [e] at h
  injection h with h2
  injection h2 with h3
  exact absurd h3 (by decide)

/-- C4 (amended): for a property name containing `count` case-insensitively,
and a schema node whose `items` value (if any) is an object so that the eager
`anyOf` computation does not raise, the resolver's base type is the integer
type regardless of the declared JSON Schema type; the returned expression is
that integer type, wrapped as `[]int` exactly when the declared `type` is
`array`, with a serialization tag appended exactly when the name contains
`odata` or sits in the override table. -/
theorem get_type_count_rule (name : String) (fields : List (String × JVal))
    (av : Option JVal)
    (hcount : containsSub "count".toList (lowerChars name) = true)
    (h1 : computeAnyOf fields = some av) :
    get_type name fields =
      some (if containsSub "odata".toList name.toList
              || COMMON_NAME_CHANGES.any (fun p => p.1 == name) then
              JVal.str (jsonTag (.str (if optIsStr (List.lookup "type" fields) "array"
                then "[]" ++ "int" else "int")) name)
            else JVal.str (if optIsStr (List.lookup "type" fields) "array"
                then "[]" ++ "int" else "int")) := by
  refine get_type_eq name fields av "int" h1 ?_
  rw [resolveBase_unfold]
  rw [if_pos hcount]

/-- Witness for C4's amended theorem at a concrete input. -/
theorem get_type_count_rule_witness :
    get_type "MemberCount" [("type", .str "array")] = some (.str "[]int") := by
  have h := get_type_count_rule "MemberCount" [("type", .str "array")] none
    (by decide) rfl
  exact h

theorem strStartsWith_map (f : Char → Char) (nd : List Char) :
    ∀ hay, strStartsWith nd hay = true → strStartsWith (nd.map f) (hay.map f) = true := by
  induction nd with
  | nil => intro hay _; rfl
  | cons a as ih =>
    intro hay h
    cases hay with
    | nil => simp [strStartsWith] at h
    | cons b bs =>
      simp only [strStartsWith, Bool.and_eq_true, beq_iff_eq] at h
      obtain ⟨rfl, h2⟩ := h
      simp only [List.map_cons, strStartsWith, Bool.and_eq_true, beq_iff_eq]
      constructor
      · simp
      · exact ih bs h2

theorem containsSub_map (f : Char → Char) (nd : List Char) :
    ∀ hay, containsSub nd hay = true → containsSub (nd.map f) (hay.map f) = true := by
  intro hay
  induction hay with
  | nil =>
    intro h
    exact strStartsWith_map f nd [] h
  | cons c rest ih =>
    intro h
    simp only [containsSub, Bool.or_eq_true] at h
    simp only [List.map_cons, containsSub, Bool.or_eq_true]
    rcases h with h | h
    · left
      have := strStartsWith_map f nd (c :: rest) h
      simpa using this
    · right; exact ih h

/-- C10: the hyperlink fallback of the resolver fires for every name that is
unchanged by lowercasing its first character — including the empty name and
names beginning with a digit or other non-letter — whenever no earlier rule
matched (no name rule, no declared `type`, no `anyOf`, no `items`) and the
name does not contain `odata` case-insensitively; the result is the shared
Link type. -/
theorem get_type_link_fallback (name : String) (fields : List (String × JVal))
    (hcount : containsSub "count".toList (lowerChars name) = false)
    (hst : name ≠ "Status") (hidf : name ≠ "Identifier") (hde : name ≠ "Description")
    (ht : List.lookup "type" fields = none)
    (ha : List.lookup "anyOf" fields = none)
    (hit : List.lookup "items" fields = none)
    (hfirst : name.toList.take 1 = (name.toList.take 1).map Char.toLower)
    (hodata : containsSub "odata".toList (lowerChars name) = false) :
    get_type name fields = some (.str "common.Link") := by
  have hcount' : ¬ (containsSub "count".toList (lowerChars name) = true) := by
    rw [hcount]; exact Bool.false_ne_true
  have hodataCS : containsSub "odata".toList name.toList = false := by
    cases hcs : containsSub "odata".toList name.toList with
    | false => rfl
    | true =>
      have hm := containsSub_map Char.toLower _ _ hcs
      rw [show (("odata".toList).map Char.toLower) = "odata".toList from by decide] at hm
      rw [show ((name.toList).map Char.toLower) = lowerChars name from rfl] at hm
      rw [hodata] at hm
      exact absurd hm (by decide)
  have hoem : name ≠ "Oem" := by
    intro e
    subst e
    exact absurd hfirst (by decide)
  have hidn : name ≠ "Id" := by
    intro e
    subst e
    exact absurd hfirst (by decide)
  have htab : COMMON_NAME_CHANGES.any (fun p => p.1 == name) = false := by
    simp [COMMON_NAME_CHANGES, Ne.symm hoem, Ne.symm hidn]
  have htag : ¬ ((containsSub "odata".toList name.toList
      || COMMON_NAME_CHANGES.any fun p => p.1 == name) = true) := by
    rw [hodataCS, htab]; exact Bool.false_ne_true
  have h1 : computeAnyOf fields = some none := by
    have e : computeAnyOf fields =
        (match List.lookup "anyOf" fields with
         | some v =>
           if truthy v then some (some v)
           else
             match List.lookup "items" fields with
             | none => some none
             | some (.obj its) => some (List.lookup "anyOf" its)
             | some _ => none
         | none =>
           match List.lookup "items" fields with
           | none => some none
           | some (.obj its) => some (List.lookup "anyOf" its)
           | some _ => none) := rfl
    rw [e, ha, hit]
  have hfb : fallbackType name = .str "common.Link" := by
    simp only [fallbackType]
    refine if_pos ?_
    rw [show (name.toList.take 1 == (name.toList.take 1).map Char.toLower) = true from
      beq_iff_eq.mpr hfirst]
    rw [hodata]
    rfl
  have h2 : resolveBase name (List.lookup "type" fields) none fields =
      some (.str "common.Link") := by
    rw [resolveBase_unfold, ht]
    rw [if_neg hcount']
    rw [if_neg (by simp [hst])]
    rw [if_neg (by simp [hidf])]
    rw [if_neg (by simp [hde])]
    rw [if_neg (by simp [optIsStr])]
    show itemsRefCase name fields = some (.str "common.Link")
    have e2 : itemsRefCase name fields =
        (match List.lookup "items" fields with
         | none => some (fallbackType name)
         | some (.obj its) =>
           match List.lookup "$ref" its with
           | some (.str s) => some (.str (lastSegment s))
           | some _ => none
           | none => some (fallbackType name)
         | some (.str s) =>
           if containsSub ['$', 'r', 'e', 'f'] s.toList then none
           else some (fallbackType name)
         | some (.arr l) =>
           if l.any (fun e => jIsStr e "$ref") then none else some (fallbackType name)
         | some _ => none) := rfl
    rw [e2, hit, hfb]
  have h3 := get_type_eq name fields none "common.Link" h1 h2
  rw [h3]
  rw [if_neg htag]
  rw [if_neg (by rw [ht]; simp [optIsStr])]

/-- Witness for C10 at a concrete input: a digit-initial name reaches the
hyperlink fallback. -/
theorem get_type_link_fallback_witness :
    get_type "0abc" [] = some (.str "common.Link") := by
  have h := get_type_link_fallback "0abc" [] (by decide) (by decide) (by decide)
    (by decide) rfl rfl rfl (by decide) (by decide)
  exact h

theorem containsSub_append_right (nd x r : List Char) (h : containsSub nd r = true) :
    containsSub nd (x ++ r) = true := by
  induction x with
  | nil => exact h
  | cons c xs ih =>
    have e : containsSub nd (c :: (xs ++ r)) =
        (strStartsWith nd (c :: (xs ++ r)) || containsSub nd (xs ++ r)) := rfl
    show containsSub nd (c :: (xs ++ r)) = true
    rw [e, ih]
    simp

theorem splitOnChar_no_sep (sep : Char) (l : List Char)
    (h : l.all (fun c => !(c == sep)) = true) : splitOnChar sep l = [l] := by
  induction l with
  | nil => rfl
  | cons c rest ih =>
    rw [List.all_cons, Bool.and_eq_true] at h
    obtain ⟨hpa, h2⟩ := h
    have h1 : (c == sep) = false := by
      cases hcb : (c == sep) with
      | false => rfl
      | true => rw [hcb] at hpa; exact absurd hpa (by decide)
    have e : splitOnChar sep (c :: rest) =
        (if c == sep then [] :: splitOnChar sep rest
         else
           match splitOnChar sep rest with
           | [] => [[c]]
           | h :: t => (c :: h) :: t) := rfl
    rw [e, if_neg (by rw [h1]; exact Bool.false_ne_true), ih h2]

theorem splitOnChar_mid (sep : Char) (p s : List Char)
    (hp : p.all (fun c => !(c == sep)) = true)
    (hs : s.all (fun c => !(c == sep)) = true) :
    splitOnChar sep (p ++ sep :: s) = [p, s] := by
  induction p with
  | nil =>
    have e : splitOnChar sep (sep :: s) =
        (if sep == sep then [] :: splitOnChar sep s
         else
           match splitOnChar sep s with
           | [] => [[sep]]
           | h :: t => (sep :: h) :: t) := rfl
    show splitOnChar sep (sep :: s) = [[], s]
    rw [e, if_pos (by simp), splitOnChar_no_sep sep s hs]
  | cons c p' ih =>
    rw [List.all_cons, Bool.and_eq_true] at hp
    obtain ⟨hpa, h2⟩ := hp
    have h1 : (c == sep) = false := by
      cases hcb : (c == sep) with
      | false => rfl
      | true => rw [hcb] at hpa; exact absurd hpa (by decide)
    have e : splitOnChar sep ((c :: p') ++ sep :: s) =
        (if c == sep then [] :: splitOnChar sep (p' ++ sep :: s)
         else
           match splitOnChar sep (p' ++ sep :: s) with
           | [] => [[c]]
           | h :: t => (c :: h) :: t) := rfl
    rw [e, if_neg (by rw [h1]; exact Bool.false_ne_true), ih h2]

theorem replaceList_prepend (ns repl rest : List Char) (a : List Char)
    (ha : a.all (fun c => !(c == '@')) = true) :
    replaceList ('@' :: ns) repl (a ++ rest) = a ++ replaceList ('@' :: ns) repl rest := by
  induction a with
  | nil => rfl
  | cons c a' ih =>
    rw [List.all_cons, Bool.and_eq_true] at ha
    obtain ⟨hpa, h2⟩ := ha
    have h1 : (c == '@') = false := by
      cases hcb : (c == '@') with
      | false => rfl
      | true => rw [hcb] at hpa; exact absurd hpa (by decide)
    have hsw : ¬ (strStartsWith ('@' :: ns) (c :: (a' ++ rest)) = true) := by
      have e2 : strStartsWith ('@' :: ns) (c :: (a' ++ rest)) =
          (('@' == c) && strStartsWith ns (a' ++ rest)) := rfl
      rw [e2, show ('@' == c) = false from by rw [Bool.beq_comm]; exact h1]
      simp
    have e : replaceList ('@' :: ns) repl ((c :: a') ++ rest) =
        (if strStartsWith ('@' :: ns) (c :: (a' ++ rest)) then
          repl ++ replaceListF (a' ++ rest).length ('@' :: ns) repl
            (List.drop ns.length (a' ++ rest))
        else c :: replaceListF (a' ++ rest).length ('@' :: ns) repl (a' ++ rest)) := rfl
    rw [e, if_neg hsw]
    rw [show replaceListF (a' ++ rest).length ('@' :: ns) repl (a' ++ rest) =
        replaceList ('@' :: ns) repl (a' ++ rest) from rfl]
    rw [ih h2]
    simp

theorem replaceList_odata_exact (repl : List Char) :
    replaceList "@odata".toList repl "@odata".toList = repl := by
  show repl ++ ([] : List Char) = repl
  exact List.append_nil repl

/-- C1 (amended): for a property name of the form `<a>@odata.<s>` with `a`
free of dots and of `@` and `s` free of dots, the normaliser yields `a`
followed by the marker's replacement — nothing when the last segment contains
`count` (case-sensitively), the literal `OData` otherwise — followed by the
Python-title-cased last segment, whose first letter of every alphabetic run is
uppercased and whose remaining letters are lowercased; in particular
`@odata.nextLink` gives `ODataNextlink` and `Members@odata.count` gives
`MembersCount`. -/
theorem normalizeName_odata (a s : List Char)
    (ha1 : a.all (fun c => !(c == '.')) = true)
    (ha2 : a.all (fun c => !(c == '@')) = true)
    (hs : s.all (fun c => !(c == '.')) = true) :
    normalizeName (String.mk (a ++ "@odata.".toList ++ s)) =
      String.mk (a ++
        ((if containsSub "count".toList s then [] else "OData".toList) ++ pyTitle s)) := by
  have hre : a ++ "@odata.".toList ++ s = (a ++ "@odata".toList) ++ '.' :: s := by
    simp
  have hcont : containsSub "@odata".toList (a ++ "@odata.".toList ++ s) = true := by
    rw [List.append_assoc]
    exact containsSub_append_right _ a _ rfl
  have hp : (a ++ "@odata".toList).all (fun c => !(c == '.')) = true := by
    rw [List.all_append, Bool.and_eq_true]
    exact ⟨ha1, by decide⟩
  have hsplit : splitOnChar '.' (a ++ "@odata.".toList ++ s) =
      [a ++ "@odata".toList, s] := by
    rw [hre]
    exact splitOnChar_mid '.' (a ++ "@odata".toList) s hp hs
  have e : normalizeName (String.mk (a ++ "@odata.".toList ++ s)) =
      (if containsSub "@odata".toList (a ++ "@odata.".toList ++ s) = true then
        String.mk (replaceList "@odata".toList
            (if containsSub "count".toList
                ((splitOnChar '.' (a ++ "@odata.".toList ++ s)).getLastD []) then []
             else "OData".toList)
            ((splitOnChar '.' (a ++ "@odata.".toList ++ s)).headD [])
          ++ pyTitle ((splitOnChar '.' (a ++ "@odata.".toList ++ s)).getLastD []))
      else (List.lookup (String.mk (a ++ "@odata.".toList ++ s))
        COMMON_NAME_CHANGES).getD (String.mk (a ++ "@odata.".toList ++ s))) := rfl
  rw [e, if_pos hcont, hsplit]
  rw [show ([a ++ "@odata".toList, s] : List (List Char)).getLastD [] = s from rfl]
  rw [show ([a ++ "@odata".toList, s] : List (List Char)).headD [] = a ++ "@odata".toList
    from rfl]
  rw [show ("@odata".toList : List Char) = '@' :: "odata".toList from rfl]
  rw [replaceList_prepend _ _ _ a ha2]
  rw [show ('@' :: "odata".toList : List Char) = "@odata".toList from rfl]
  rw [replaceList_odata_exact]
  rw [List.append_assoc]

/-- Witness for C1's amended theorem at a concrete input. -/
theorem normalizeName_odata_witness :
    normalizeName (String.mk ("Members".toList ++ "@odata.".toList ++ "nextLink".toList)) =
      String.mk ("Members".toList ++
        ((if containsSub "count".toList "nextLink".toList then []
          else "OData".toList) ++ pyTitle "nextLink".toList)) :=
  normalizeName_odata "Members".toList "nextLink".toList (by decide) (by decide) (by decide)

theorem strLt_irrefl (a : List Char) : strLt a a = false := by
  induction a with
  | nil => rfl
  | cons c cs ih =>
    have e : strLt (c :: cs) (c :: cs) =
        (if c == c then strLt cs cs else decide (c < c)) := rfl
    rw [e, if_pos (by simp), ih]

theorem strLt_trans (a : List Char) :
    ∀ b c, strLt a b = true → strLt b c = true → strLt a c = true := by
  induction a with
  | nil =>
    intro b c h1 h2
    cases b with
    | nil => simp [strLt] at h1
    | cons bh bt =>
      cases c with
      | nil => simp [strLt] at h2
      | cons ch ct => rfl
  | cons ah as ih =>
    intro b c h1 h2
    cases b with
    | nil => simp [strLt] at h1
    | cons bh bt =>
      cases c with
      | nil => simp [strLt] at h2
      | cons ch ct =>
        have e1 : strLt (ah :: as) (bh :: bt) =
            (if ah == bh then strLt as bt else decide (ah < bh)) := rfl
        have e2 : strLt (bh :: bt) (ch :: ct) =
            (if bh == ch then strLt bt ct else decide (bh < ch)) := rfl
        have e3 : strLt (ah :: as) (ch :: ct) =
            (if ah == ch then strLt as ct else decide (ah < ch)) := rfl
        rw [e1] at h1
        rw [e2] at h2
        rw [e3]
        by_cases hab : ah = bh
        · subst hab
          rw [if_pos (by simp)] at h1
          by_cases hbc : ah = ch
          · subst hbc
            rw [if_pos (by simp)] at h2
            rw [if_pos (by simp)]
            exact ih bt ct h1 h2
          · rw [if_neg (by simp [hbc])] at h2
            rw [if_neg (by simp [hbc])]
            exact h2
        · rw [if_neg (by simp [hab])] at h1
          have hlt1 : ah < bh := of_decide_eq_true h1
          by_cases hbc : bh = ch
          · subst hbc
            rw [if_neg (by simp [hab])]
            exact h1
          · rw [if_neg (by simp [hbc])] at h2
            have hlt2 : bh < ch := of_decide_eq_true h2
            have hlt : ah < ch := lt_trans hlt1 hlt2
            rw [if_neg (by simp [ne_of_lt hlt])]
            exact decide_eq_true hlt

theorem strLt_total (a : List Char) :
    ∀ b, strLt a b = false → a = b ∨ strLt b a = true := by
  induction a with
  | nil =>
    intro b h
    cases b with
    | nil => exact Or.inl rfl
    | cons bh bt => simp [strLt] at h
  | cons ah as ih =>
    intro b h
    cases b with
    | nil => exact Or.inr rfl
    | cons bh bt =>
      have e1 : strLt (ah :: as) (bh :: bt) =
          (if ah == bh then strLt as bt else decide (ah < bh)) := rfl
      have e2 : strLt (bh :: bt) (ah :: as) =
          (if bh == ah then strLt bt as else decide (bh < ah)) := rfl
      rw [e1] at h
      by_cases hab : ah = bh
      · subst hab
        rw [if_pos (by simp)] at h
        rcases ih bt h with rfl | hlt
        · exact Or.inl rfl
        · right
          rw [e2, if_pos (by simp)]
          exact hlt
      · rw [if_neg (by simp [hab])] at h
        have hnlt : ¬ ah < bh := of_decide_eq_false h
        have hlt : bh < ah := lt_of_le_of_ne (le_of_not_lt hnlt) (fun e => hab e.symm)
        right
        rw [e2, if_neg (by simp [ne_of_lt hlt])]
        exact decide_eq_true hlt

/-- C5 counterexample: with base URL `z.json` and the single qualifying
alternative fragment `a`, the loop keeps a fragment only when it compares
greater than the current URL, so the original base URL is returned even though
a qualifying alternative exists — the result is not the lexicographically
greatest fragment. -/
theorem resolveCanonicalURL_cex :
    resolveCanonicalURL "z.json" (JVal.obj [("definitions", JVal.obj [("Thing",
        JVal.obj [("anyOf",
          JVal.arr [JVal.obj [("$ref", JVal.str "a#/definitions/Thing")]])])])])
      "Thing" = some "z.json" ∧
    qualFrags [JVal.obj [("$ref", JVal.str "a#/definitions/Thing")]] = ["a"] ∧
    ("z.json" : String) ≠ "a" := ⟨rfl, rfl, by decide⟩

/-- C5 (amended): the canonical-URL loop ignores alternatives whose reference
contains `idRef` and returns the lexicographic MAXIMUM of the original base
URL and the qualifying alternatives' reference URL fragments: the result is a
member of that set, is not below the base URL, and is not below any qualifying
fragment; in particular the base URL stands when no alternative qualifies or
when every qualifying fragment sorts below it. -/
theorem chaseRefs_max (refs : List JVal) :
    (∀ r ∈ refs, ∃ rf, r = JVal.obj rf ∧
      (List.lookup "$ref" rf = none ∨ ∃ s, List.lookup "$ref" rf = some (.str s))) →
    ∀ url : String, ∃ m : String, chaseRefs url refs = some m ∧
      (m = url ∨ m ∈ qualFrags refs) ∧
      strLt m.toList url.toList = false ∧
      ∀ f ∈ qualFrags refs, strLt m.toList f.toList = false := by
  induction refs with
  | nil =>
    intro _ url
    exact ⟨url, rfl, Or.inl rfl, strLt_irrefl _,
      fun f hf => absurd hf (List.not_mem_nil f)⟩
  | cons r rs ih =>
    intro hwf url
    obtain ⟨rf, rfl, hk⟩ := hwf r (List.mem_cons_self r rs)
    have ih' := ih (fun x hx => hwf x (List.mem_cons_of_mem _ hx))
    have hlink : ∃ link : String, (List.lookup "$ref" rf).getD (.str "") = .str link := by
      rcases hk with hnone | ⟨s0, hr⟩
      · exact ⟨"", by rw [hnone]; rfl⟩
      · exact ⟨s0, by rw [hr]; rfl⟩
    obtain ⟨link, hlk⟩ := hlink
    have e1 : chaseRefs url (JVal.obj rf :: rs) =
        (match (List.lookup "$ref" rf).getD (.str "") with
         | .str link =>
           if containsSub "idRef".toList link.toList then chaseRefs url rs
           else
             let refurl := String.mk ((splitOnChar '#' link.toList).headD [])
             chaseRefs (if strLt url.toList refurl.toList then refurl else url) rs
         | .obj fs2 =>
           if fs2.any (fun p => p.1 == "idRef") then chaseRefs url rs else none
         | .arr l2 =>
           if l2.any (fun e => jIsStr e "idRef") then chaseRefs url rs else none
         | _ => none) := rfl
    have e2 : qualFrags (JVal.obj rf :: rs) =
        (match (List.lookup "$ref" rf).getD (.str "") with
         | .str link =>
           if containsSub "idRef".toList link.toList then qualFrags rs
           else String.mk ((splitOnChar '#' link.toList).headD []) :: qualFrags rs
         | _ => qualFrags rs) := rfl
    by_cases hid : containsSub "idRef".toList link.toList = true
    · have ec : chaseRefs url (JVal.obj rf :: rs) = chaseRefs url rs := by
        rw [e1, hlk]
        exact if_pos hid
      have eq2 : qualFrags (JVal.obj rf :: rs) = qualFrags rs := by
        rw [e2, hlk]
        exact if_pos hid
      obtain ⟨m, hm, hmem, hge, hall⟩ := ih' url
      refine ⟨m, by rw [ec]; exact hm, ?_, hge, ?_⟩
      · rw [eq2]; exact hmem
      · rw [eq2]; exact hall
    · have hidF : containsSub "idRef".toList link.toList = false := by
        cases h : containsSub "idRef".toList link.toList with
        | false => rfl
        | true => exact absurd h hid
      have ec : chaseRefs url (JVal.obj rf :: rs) =
          chaseRefs (if strLt url.toList
              (String.mk ((splitOnChar '#' link.toList).headD [])).toList then
            String.mk ((splitOnChar '#' link.toList).headD []) else url) rs := by
        rw [e1, hlk]
        exact if_neg hid
      have eq2 : qualFrags (JVal.obj rf :: rs) =
          String.mk ((splitOnChar '#' link.toList).headD []) :: qualFrags rs := by
        rw [e2, hlk]
        exact if_neg hid
      obtain ⟨m, hm, hmem, hge, hall⟩ :=
        ih' (if strLt url.toList
            (String.mk ((splitOnChar '#' link.toList).headD [])).toList then
          String.mk ((splitOnChar '#' link.toList).headD []) else url)
      refine ⟨m, by rw [ec]; exact hm, ?_, ?_, ?_⟩
      · rcases hmem with heq | hin
        · by_cases hcmp : strLt url.toList
              (String.mk ((splitOnChar '#' link.toList).headD [])).toList = true
          · rw [if_pos hcmp] at heq
            right
            rw [eq2, heq]
            exact List.mem_cons_self _ _
          · rw [if_neg hcmp] at heq
            exact Or.inl heq
        · right
          rw [eq2]
          exact List.mem_cons_of_mem _ hin
      · by_cases hcmp : strLt url.toList
            (String.mk ((splitOnChar '#' link.toList).headD [])).toList = true
        · rw [if_pos hcmp] at hge
          cases hmu : strLt m.toList url.toList with
          | false => rfl
          | true =>
            have htr := strLt_trans m.toList url.toList
              (String.mk ((splitOnChar '#' link.toList).headD [])).toList hmu hcmp
            rw [htr] at hge
            exact absurd hge (by decide)
        · rw [if_neg hcmp] at hge
          exact hge
      · intro f hf
        rw [eq2] at hf
        rcases List.mem_cons.mp hf with rfl | hf'
        · by_cases hcmp : strLt url.toList
              (String.mk ((splitOnChar '#' link.toList).headD [])).toList = true
          · rw [if_pos hcmp] at hge
            exact hge
          · rw [if_neg hcmp] at hge
            have hUF : strLt url.toList
                (String.mk ((splitOnChar '#' link.toList).headD [])).toList = false := by
              cases h : strLt url.toList
                  (String.mk ((splitOnChar '#' link.toList).headD [])).toList with
              | false => rfl
              | true => exact absurd h hcmp
            cases hmf : strLt m.toList
                (String.mk ((splitOnChar '#' link.toList).headD [])).toList with
            | false => rfl
            | true =>
              rcases strLt_total url.toList _ hUF with hequ | hFu
              · rw [← hequ] at hmf
                rw [hmf] at hge
                exact absurd hge (by decide)
              · have htr := strLt_trans m.toList _ url.toList hmf hFu
                rw [htr] at hge
                exact absurd hge (by decide)
        · exact hall f hf'

/-- Witness for C5's amended theorem at a concrete input. -/
theorem chaseRefs_max_witness :
    ∃ m : String, chaseRefs "b" [JVal.obj [("$ref", JVal.str "a#x")]] = some m ∧
      (m = "b" ∨ m ∈ qualFrags [JVal.obj [("$ref", JVal.str "a#x")]]) ∧
      strLt m.toList ("b" : String).toList = false ∧
      ∀ f ∈ qualFrags [JVal.obj [("$ref", JVal.str "a#x")]],
        strLt m.toList f.toList = false := by
  refine chaseRefs_max [JVal.obj [("$ref", JVal.str "a#x")]] ?_ "b"
  intro k hk
  simp only [List.mem_cons, List.not_mem_nil, or_false] at hk
  subst hk
  exact ⟨_, rfl, Or.inr ⟨"a#x", rfl⟩⟩

theorem attrsFromList_eq_nil (orig : List JVal) :
    ∀ (l : List JVal) (attrs : List AttrInfo),
      attrsFromList orig l = some attrs → attrs = [] := by
  intro l
  induction l with
  | nil =>
    intro attrs h
    exact (Option.some.inj h).symm
  | cons e rest ih =>
    intro attrs h
    simp only [attrsFromList] at h
    split at h
    · exact ih attrs h
    · split at h
      · split at h
        · split at h
          · exact ih attrs h
          · cases h
        · cases h
        · cases h
      · cases h

theorem buildAttrs_mem :
    ∀ (pfs : List (String × JVal)) (attrs : List AttrInfo), buildAttrs pfs = some attrs →
    ∀ a ∈ attrs, ∃ prop pf, (prop, JVal.obj pf) ∈ pfs ∧ prop ≠ "Name" ∧ prop ≠ "Id" ∧
      truthy ((List.lookup "deprecated" pf).getD .null) = false ∧
      ∃ ty, get_type prop pf = some ty ∧
      ∃ de, format_comment prop (get_desc pf) "used" " is" = some de ∧
        a = ⟨normalizeName prop, ty, de⟩ := by
  intro pfs
  induction pfs with
  | nil =>
    intro attrs h a ha
    have : attrs = [] := (Option.some.inj h).symm
    subst this
    exact absurd ha (List.not_mem_nil a)
  | cons pr rest ih =>
    intro attrs h a ha
    obtain ⟨prop, prawp⟩ := pr
    simp only [buildAttrs] at h
    split at h
    · obtain ⟨p2, pf2, hmem, hrest⟩ := ih attrs h a ha
      exact ⟨p2, pf2, List.mem_cons_of_mem _ hmem, hrest⟩
    · rename_i hn
      split at h
      · rename_i pfv pf
        split at h
        · obtain ⟨p2, pf2, hmem, hrest⟩ := ih attrs h a ha
          exact ⟨p2, pf2, List.mem_cons_of_mem _ hmem, hrest⟩
        · rename_i hdep
          split at h
          · cases h
          · rename_i ty hty
            split at h
            · cases h
            · rename_i de hde
              split at h
              · cases h
              · rename_i tailAttrs hba
                have hattrs : attrs = ⟨normalizeName prop, ty, de⟩ :: tailAttrs :=
                  (Option.some.inj h).symm
                subst hattrs
                have hnName : prop ≠ "Name" := fun e => by subst e; simp at hn
                have hnId : prop ≠ "Id" := fun e => by subst e; simp at hn
                have hdf : truthy ((List.lookup "deprecated" pf).getD .null) = false := by
                  cases h' : truthy ((List.lookup "deprecated" pf).getD .null) with
                  | false => rfl
                  | true => exact absurd h' hdep
                rcases List.mem_cons.mp ha with rfl | hin
                · exact ⟨prop, pf, List.mem_cons_self _ _, hnName, hnId, hdf,
                    ty, hty, de, hde, rfl⟩
                · obtain ⟨p2, pf2, hmem, hrest⟩ := ih tailAttrs hba a hin
                  exact ⟨p2, pf2, List.mem_cons_of_mem _ hmem, hrest⟩
      · cases h

theorem add_object_src (name : String) (fields : List (String × JVal)) (ci : ClassInfo)
    (h : add_object name fields = some ci) :
    ci.name = name ∧
    format_comment name (get_desc fields) "used" " is" = some ci.description ∧
    ∀ a ∈ ci.attrs, ∃ pfs prop pf,
      List.lookup "properties" fields = some (JVal.obj pfs) ∧
      (prop, JVal.obj pf) ∈ pfs ∧ prop ≠ "Name" ∧ prop ≠ "Id" ∧
      truthy ((List.lookup "deprecated" pf).getD .null) = false ∧
      ∃ ty, get_type prop pf = some ty ∧
      ∃ de, format_comment prop (get_desc pf) "used" " is" = some de ∧
        a = ⟨normalizeName prop, ty, de⟩ := by
  simp only [add_object] at h
  split at h
  · cases h
  · rename_i d hfc
    split at h
    · cases h
    · rename_i attrs hattrs
      have hci : ci = ⟨name, d, attrs⟩ := (Option.some.inj h).symm
      subst hci
      refine ⟨rfl, by rw [hfc], ?_⟩
      intro a ha
      split at hattrs
      · have : attrs = [] := (Option.some.inj hattrs).symm
        subst this
        exact absurd ha (List.not_mem_nil a)
      · rename_i pfs hlp
        obtain ⟨p, pf, hmem, hrest⟩ := buildAttrs_mem pfs attrs hattrs a ha
        exact ⟨pfs, p, pf, hlp, hmem, hrest⟩
      · rename_i l hlp
        have : attrs = [] := attrsFromList_eq_nil l l attrs hattrs
        subst this
        exact absurd ha (List.not_mem_nil a)
      · rename_i s hlp
        split at hattrs
        · have : attrs = [] := (Option.some.inj hattrs).symm
          subst this
          exact absurd ha (List.not_mem_nil a)
        · cases hattrs
      · cases hattrs

theorem classifyDefs_classes_mem :
    ∀ (defs : List (String × JVal)) (m m' : Model), classifyDefs m defs = some m' →
    ∀ ci ∈ m'.classes, ci ∈ m.classes ∨ ∃ nm fields,
      (nm, JVal.obj fields) ∈ defs ∧ nm ≠ "Actions" ∧
      optIsStr (List.lookup "type" fields) "object" = true ∧
      ¬(pyInContainer "target" ((List.lookup "properties" fields).getD (.str "")) =
          some true ∧
        pyInContainer "title" ((List.lookup "properties" fields).getD (.str "")) =
          some true) ∧
      add_object nm fields = some ci := by
  intro defs
  induction defs with
  | nil =>
    intro m m' h ci hci
    have hm : m = m' := Option.some.inj h
    subst hm
    exact Or.inl hci
  | cons pr rest ih =>
    intro m m' h ci hci
    obtain ⟨nm, defn⟩ := pr
    simp only [classifyDefs] at h
    split at h
    · rcases ih m m' h ci hci with hin | ⟨n2, f2, hmem, hrest⟩
      · exact Or.inl hin
      · exact Or.inr ⟨n2, f2, List.mem_cons_of_mem _ hmem, hrest⟩
    · rename_i hact
      have hnact : nm ≠ "Actions" := fun e => by subst e; simp at hact
      split at h
      · rename_i dv fields
        split at h
        · rename_i hobj
          split at h
          · cases h
          · rename_i hasTarget hT
            split at h
            · rename_i hHT
              split at h
              · cases h
              · rename_i hasTitle hTl
                split at h
                · rename_i hHTl
                  rcases ih m m' h ci hci with hin | ⟨n2, f2, hmem, hrest⟩
                  · exact Or.inl hin
                  · exact Or.inr ⟨n2, f2, List.mem_cons_of_mem _ hmem, hrest⟩
                · rename_i hHTl
                  split at h
                  · cases h
                  · rename_i ci2 hao
                    rcases ih _ m' h ci hci with hin | ⟨n2, f2, hmem, hrest⟩
                    · rcases List.mem_append.mp hin with hin1 | hin2
                      · exact Or.inl hin1
                      · have hcc : ci = ci2 := List.mem_singleton.mp hin2
                        subst hcc
                        refine Or.inr ⟨nm, fields, List.mem_cons_self _ _, hnact, hobj,
                          ?_, hao⟩
                        rintro ⟨ht1, ht2⟩
                        rw [hTl] at ht2
                        exact hHTl (Option.some.inj ht2)
                    · exact Or.inr ⟨n2, f2, List.mem_cons_of_mem _ hmem, hrest⟩
            · rename_i hHT
              split at h
              · cases h
              · rename_i ci2 hao
                rcases ih _ m' h ci hci with hin | ⟨n2, f2, hmem, hrest⟩
                · rcases List.mem_append.mp hin with hin1 | hin2
                  · exact Or.inl hin1
                  · have hcc : ci = ci2 := List.mem_singleton.mp hin2
                    subst hcc
                    refine Or.inr ⟨nm, fields, List.mem_cons_self _ _, hnact, hobj,
                      ?_, hao⟩
                    rintro ⟨ht1, ht2⟩
                    rw [hT] at ht1
                    exact hHT (Option.some.inj ht1)
                · exact Or.inr ⟨n2, f2, List.mem_cons_of_mem _ hmem, hrest⟩
        · rename_i hnobj
          split at h
          · rename_i henum
            split at h
            · cases h
            · rename_i ei hae
              rcases ih _ m' h ci hci with hin | ⟨n2, f2, hmem, hrest⟩
              · exact Or.inl hin
              · exact Or.inr ⟨n2, f2, List.mem_cons_of_mem _ hmem, hrest⟩
          · rename_i henum
            rcases ih m m' h ci hci with hin | ⟨n2, f2, hmem, hrest⟩
            · exact Or.inl hin
            · exact Or.inr ⟨n2, f2, List.mem_cons_of_mem _ hmem, hrest⟩
      · cases h

/-- C6: the classifier emits no class descriptor for a definition literally
named `Actions`, and none for an object-typed definition whose properties
contain both `target` and `title`: every emitted class descriptor originates
from a definition (named as the descriptor is) that is not named `Actions`,
is object-typed, and whose properties do not contain both markers. -/
theorem classify_no_actions (objectName pkg : String) (objectData : JVal) (m : Model)
    (h : classify objectName pkg objectData = some m) :
    ∀ ci ∈ m.classes, ∃ ofs dfs nm fields,
      objectData = JVal.obj ofs ∧
      List.lookup "definitions" ofs = some (JVal.obj dfs) ∧
      (nm, JVal.obj fields) ∈ dfs ∧ nm ≠ "Actions" ∧
      optIsStr (List.lookup "type" fields) "object" = true ∧
      ¬(pyInContainer "target" ((List.lookup "properties" fields).getD (.str "")) =
          some true ∧
        pyInContainer "title" ((List.lookup "properties" fields).getD (.str "")) =
          some true) ∧
      add_object nm fields = some ci := by
  intro ci hci
  simp only [classify] at h
  split at h
  · rename_i ofs
    split at h
    · rename_i dfs hdefs
      rcases classifyDefs_classes_mem dfs ⟨objectName, pkg, [], []⟩ m h ci hci with
        hin | ⟨nm, fields, hmem, hrest⟩
      · exact absurd hin (List.not_mem_nil ci)
      · exact ⟨ofs, dfs, nm, fields, rfl, hdefs, hmem, hrest⟩
    · rename_i l hdefs
      split at h
      · have hm : (⟨objectName, pkg, [], []⟩ : Model) = m := Option.some.inj h
        rw [← hm] at hci
        exact absurd hci (List.not_mem_nil ci)
      · cases h
    · rename_i s hdefs
      split at h
      · have hm : (⟨objectName, pkg, [], []⟩ : Model) = m := Option.some.inj h
        rw [← hm] at hci
        exact absurd hci (List.not_mem_nil ci)
      · cases h
    · cases h
    · cases h
  · cases h

/-- Witness for C6 at a concrete document: the only emitted class descriptor
is `Widget`, and its origin satisfies all the exclusion conditions. -/
theorem classify_no_actions_witness :
    ∃ ofs dfs nm fields,
      (JVal.obj [("definitions", JVal.obj
          [("Actions", JVal.obj [("type", JVal.str "object")]),
           ("Widget", JVal.obj [("type", JVal.str "object")])])]) = JVal.obj ofs ∧
      List.lookup "definitions" ofs = some (JVal.obj dfs) ∧
      (nm, JVal.obj fields) ∈ dfs ∧ nm ≠ "Actions" ∧
      optIsStr (List.lookup "type" fields) "object" = true ∧
      ¬(pyInContainer "target" ((List.lookup "properties" fields).getD (.str "")) =
          some true ∧
        pyInContainer "title" ((List.lookup "properties" fields).getD (.str "")) =
          some true) ∧
      add_object nm fields = some ⟨"Widget", "// Widget is", []⟩ :=
  classify_no_actions "W" "redfish"
    (JVal.obj [("definitions", JVal.obj
      [("Actions", JVal.obj [("type", JVal.str "object")]),
       ("Widget", JVal.obj [("type", JVal.str "object")])])])
    ⟨"W", "redfish", [⟨"Widget", "// Widget is", []⟩], []⟩ rfl
    ⟨"Widget", "// Widget is", []⟩ (List.mem_singleton.mpr rfl)

/-- C7: every attribute of an emitted class descriptor originates from a
schema property that is named neither `Name` nor `Id` and is not marked
deprecated — so the attrs sequence contains no attribute for `Name`, `Id`, or
any deprecated property. -/
theorem add_object_excludes (name : String) (fields : List (String × JVal)) (ci : ClassInfo)
    (h : add_object name fields = some ci) :
    ∀ a ∈ ci.attrs, ∃ pfs prop pf,
      List.lookup "properties" fields = some (JVal.obj pfs) ∧
      (prop, JVal.obj pf) ∈ pfs ∧ prop ≠ "Name" ∧ prop ≠ "Id" ∧
      truthy ((List.lookup "deprecated" pf).getD .null) = false ∧
      ∃ ty, get_type prop pf = some ty ∧
      ∃ de, format_comment prop (get_desc pf) "used" " is" = some de ∧
        a = ⟨normalizeName prop, ty, de⟩ :=
  (add_object_src name fields ci h).2.2

/-- Witness for C7 at a concrete input: with `Name`, a deprecated property
and `Foo` present, the only attribute is `Foo`. -/
theorem add_object_excludes_witness :
    ∃ pfs prop pf,
      List.lookup "properties" [("properties", JVal.obj
          [("Name", JVal.obj []), ("Foo", JVal.obj []),
           ("Old", JVal.obj [("deprecated", JVal.bool true)])])] =
        some (JVal.obj pfs) ∧
      (prop, JVal.obj pf) ∈ pfs ∧ prop ≠ "Name" ∧ prop ≠ "Id" ∧
      truthy ((List.lookup "deprecated" pf).getD .null) = false ∧
      ∃ ty, get_type prop pf = some ty ∧
      ∃ de, format_comment prop (get_desc pf) "used" " is" = some de ∧
        (⟨"Foo", JVal.str "string", "// Foo is"⟩ : AttrInfo) =
          ⟨normalizeName prop, ty, de⟩ :=
  add_object_excludes "W"
    [("properties", JVal.obj
      [("Name", JVal.obj []), ("Foo", JVal.obj []),
       ("Old", JVal.obj [("deprecated", JVal.bool true)])])]
    ⟨"W", "// W is", [⟨"Foo", JVal.str "string", "// Foo is"⟩]⟩ rfl
    ⟨"Foo", JVal.str "string", "// Foo is"⟩ (List.mem_singleton.mpr rfl)

theorem get_desc_eq_spec (g : List (String × JVal))
    (hg : List.lookup "longDescription" g = none ∨
      ∃ s, List.lookup "longDescription" g = some (.str s)) :
    get_desc g = descPreferenceSpec g := by
  have e1 : get_desc g =
      (match List.lookup "longDescription" g with
       | some v => if truthy v then v else (List.lookup "description" g).getD (.str "")
       | none => (List.lookup "description" g).getD (.str "")) := rfl
  have e2 : descPreferenceSpec g =
      (match List.lookup "longDescription" g with
       | some (.str s) =>
         if s.isEmpty then (List.lookup "description" g).getD (.str "") else .str s
       | _ => (List.lookup "description" g).getD (.str "")) := rfl
  rcases hg with hnone | ⟨s, hsome⟩
  · rw [e1, e2, hnone]
  · rw [e1, e2, hsome]
    show (if truthy (.str s) then JVal.str s
      else (List.lookup "description" g).getD (.str "")) =
      (if s.isEmpty then (List.lookup "description" g).getD (.str "") else JVal.str s)
    by_cases he : s.isEmpty = true
    · rw [if_neg (by simp [truthy, he]), if_pos he]
    · rw [if_pos (by simp [truthy, he]), if_neg he]

/-- C9: the description text fed to the comment synthesizer is the node's
`longDescription` when present and non-empty, otherwise its `description`,
otherwise the empty string — and this long/short preference governs both the
class comment and every attribute comment built by `_add_object`. -/
theorem desc_preference (name : String) (fields : List (String × JVal)) (ci : ClassInfo)
    (h : add_object name fields = some ci) :
    (∀ g : List (String × JVal),
      (List.lookup "longDescription" g = none ∨
        ∃ s, List.lookup "longDescription" g = some (.str s)) →
      get_desc g = descPreferenceSpec g) ∧
    format_comment name (get_desc fields) "used" " is" = some ci.description ∧
    ∀ a ∈ ci.attrs, ∃ prop pf,
      (∃ pfs, List.lookup "properties" fields = some (JVal.obj pfs) ∧
        (prop, JVal.obj pf) ∈ pfs) ∧
      format_comment prop (get_desc pf) "used" " is" = some a.description := by
  obtain ⟨hname, hdesc, hattrs⟩ := add_object_src name fields ci h
  refine ⟨fun g hg => get_desc_eq_spec g hg, hdesc, ?_⟩
  intro a ha
  obtain ⟨pfs, prop, pf, hlp, hmem, _, _, _, ty, hty, de, hde, haeq⟩ := hattrs a ha
  refine ⟨prop, pf, ⟨pfs, hlp, hmem⟩, ?_⟩
  rw [hde, haeq]

/-- Witness for C9 at a concrete input: a class with a non-empty long
description and one attribute whose node carries only a short description. -/
theorem desc_preference_witness :
    (∀ g : List (String × JVal),
      (List.lookup "longDescription" g = none ∨
        ∃ s, List.lookup "longDescription" g = some (.str s)) →
      get_desc g = descPreferenceSpec g) ∧
    format_comment "W"
      (get_desc [("longDescription", JVal.str "L text"),
        ("properties", JVal.obj [("Foo", JVal.obj [("description", JVal.str "F text")])])])
      "used" " is" =
      some (⟨"W", "// W is L text",
        [⟨"Foo", JVal.str "string", "// Foo is F text"⟩]⟩ : ClassInfo).description ∧
    ∀ a ∈ (⟨"W", "// W is L text",
        [⟨"Foo", JVal.str "string", "// Foo is F text"⟩]⟩ : ClassInfo).attrs,
      ∃ prop pf,
      (∃ pfs, List.lookup "properties"
          [("longDescription", JVal.str "L text"),
           ("properties", JVal.obj [("Foo", JVal.obj [("description", JVal.str "F text")])])] =
          some (JVal.obj pfs) ∧
        (prop, JVal.obj pf) ∈ pfs) ∧
      format_comment prop (get_desc pf) "used" " is" = some a.description :=
  desc_preference "W"
    [("longDescription", JVal.str "L text"),
     ("properties", JVal.obj [("Foo", JVal.obj [("description", JVal.str "F text")])])]
    ⟨"W", "// W is L text", [⟨"Foo", JVal.str "string", "// Foo is F text"⟩]⟩ rfl
